import Mathlib

/-
A shallow embedding of the core of the budget_analysis repository
(src/budget_analysis.py, together with the src/ai.py variants where the
two scripts differ), and proofs about the embedded functions.

Modelling conventions:
* Python strings are modelled as `String` / `List Char`.  Character
  classes (`\w`, `\s`, `[^A-Z\s]`, `str.upper`, `str.lower`,
  `str.strip`) are modelled at the ASCII level, where Python's
  unicode-aware behaviour coincides with the model.
* Python floats are modelled as exact rationals (ℚ).  All amounts and
  similarity scores appearing in the program are small decimal numbers
  for which binary floating point and exact rational arithmetic agree
  on every comparison performed by the code.
* `difflib.SequenceMatcher` is modelled without junk elements and
  without the autojunk heuristic (autojunk only activates on sequences
  of length ≥ 200).  The `real_quick_ratio`/`quick_ratio` prefilters of
  `get_close_matches` are upper bounds of `ratio`, so the acceptance
  test reduces to the final `ratio ≥ cutoff` comparison, which is what
  the model computes.
* Reading CSV files and writing reports are I/O concerns; the embedding
  starts from the in-memory row data (a list of header/value pairs per
  row) that `csv.DictReader` produces.
-/

/-! ## Basic character classes (ASCII models of Python's classes) -/

/-- The whitespace class used by Python's `\s` and `str.strip` on ASCII
data: space, tab, newline, carriage return, vertical tab, form feed. -/
def isSp (ch : Char) : Bool :=
  ch == ' ' || ch == '\t' || ch == '\n' || ch == '\r' ||
  ch == Char.ofNat 11 || ch == Char.ofNat 12

/-- Python's `\w` word-character class on ASCII data: letters, digits,
underscore. -/
def isWordChar (ch : Char) : Bool :=
  ch.isAlpha || ch.isDigit || ch == '_'

/-- Python `str.upper` on an ASCII character. -/
def pyUpper (ch : Char) : Char :=
  if ch.isLower then Char.ofNat (ch.toNat - 32) else ch

/-- Python `str.lower` on an ASCII character. -/
def pyLower (ch : Char) : Char :=
  if ch.isUpper then Char.ofNat (ch.toNat + 32) else ch

/-- Python `str.strip()` (drop leading and trailing whitespace). -/
def pyStrip (l : List Char) : List Char :=
  ((l.dropWhile isSp).reverse.dropWhile isSp).reverse

/-- String wrapper for `pyStrip`. -/
def stripStr (s : String) : String := ⟨pyStrip s.data⟩

/-! ## The normalizer (`normalize_description`, budget_analysis.py lines 24-37)

The Python function applies, in order:
1. `desc.upper()`
2. `re.sub(r'\*\w*\d\w*', '', desc)` — delete every `*`-prefixed
   word-character run that contains a digit.
3. `re.sub(r'[^A-Z\s]', ' ', desc)` — replace every character that is
   not an uppercase letter and not whitespace by a space.
4. `re.sub(r'\s+', ' ', desc).strip()` — collapse whitespace runs and
   strip the ends.
-/

/-- Step 2 of the normalizer, as a left-to-right scan.
`re.sub(r'\*\w*\d\w*', '', s)` matches at a `*` exactly when the
maximal word-character run following the `*` contains a digit, and the
greedy match then consumes the `*` together with that entire run.  The
boolean state records whether the scan is currently inside a run being
deleted (equivalently, whether the remaining word characters of the
current run are still to be dropped). -/
def sub1Go : Bool → List Char → List Char
  | _, [] => []
  | skipping, ch :: rest =>
    if skipping && isWordChar ch then sub1Go true rest
    else if ch = '*' && (rest.takeWhile isWordChar).any Char.isDigit then
      sub1Go true rest
    else ch :: sub1Go false rest

/-- Step 2 of the normalizer: `re.sub(r'\*\w*\d\w*', '', s)`. -/
def sub1 (l : List Char) : List Char := sub1Go false l

/-- Step 3 of the normalizer, on one character. -/
def sub2c (ch : Char) : Char :=
  if ch.isUpper || isSp ch then ch else ' '

/-- Step 3 of the normalizer: `re.sub(r'[^A-Z\s]', ' ', s)`. -/
def sub2 (l : List Char) : List Char := l.map sub2c

/-- First half of step 4: `re.sub(r'\s+', ' ', s)` replaces every
maximal whitespace run by a single space.  The boolean state records
whether the scan is inside a whitespace run whose single replacement
space has already been emitted. -/
def collapseGo : Bool → List Char → List Char
  | _, [] => []
  | inRun, ch :: rest =>
    if isSp ch then
      if inRun then collapseGo true rest else ' ' :: collapseGo true rest
    else ch :: collapseGo false rest

/-- `re.sub(r'\s+', ' ', s)`. -/
def collapse (l : List Char) : List Char := collapseGo false l

/-- `normalize_description` on the character-list level. -/
def normalizeChars (l : List Char) : List Char :=
  pyStrip (collapse (sub2 (sub1 (l.map pyUpper))))

/-- `normalize_description` (budget_analysis.py lines 24-37; the ai.py
copy at lines 24-44 is identical up to comments). -/
def normalize_description (s : String) : String :=
  ⟨normalizeChars s.data⟩

/-! ## The similarity score (`difflib.SequenceMatcher.ratio`)

`ratio(a, b) = 2 * M / (len(a) + len(b))` where `M` is the total size of
the matching blocks found by `get_matching_blocks`: recursively take the
longest matching block (earliest in `a`, then earliest in `b`, on ties)
and recurse on the pieces to its left and to its right. -/

/-- Length of the common block of `a` and `b` that ends exactly at
positions `i` (in `a`) and `j` (in `b`); 0 if `a[i] ≠ b[j]` or either
index is out of range.  This is the quantity difflib maintains in its
`j2len` table. -/
def matchEndLen (a b : List Char) : Nat → Nat → Nat
  | 0, j =>
    match a[0]?, b[j]? with
    | some x, some y => if x = y then 1 else 0
    | _, _ => 0
  | i + 1, j =>
    match a[i + 1]?, b[j]? with
    | some x, some y =>
      if x = y then
        match j with
        | 0 => 1
        | j' + 1 => matchEndLen a b i j' + 1
      else 0
    | _, _ => 0

/-- difflib's `find_longest_match` on whole sequences (no junk): scan
end positions `i` ascending, then `j` ascending, and record a block only
when strictly longer than the best so far.  Returns
`(start in a, start in b, size)`. -/
def findLongestMatch (a b : List Char) : Nat × Nat × Nat :=
  (List.range a.length).foldl
    (fun best i =>
      (List.range b.length).foldl
        (fun best j =>
          let k := matchEndLen a b i j
          if best.2.2 < k then (i + 1 - k, j + 1 - k, k) else best)
        best)
    (0, 0, 0)

/-- Total matched size, with explicit fuel.  Each recursive call
strictly decreases the length of the first list (the block start `i`
satisfies `i < a.length` and the right piece drops `i + k ≥ 1`
elements), so fuel `a.length + 1` never runs out. -/
def matchTotalF : Nat → List Char → List Char → Nat
  | 0, _, _ => 0
  | fuel + 1, a, b =>
    match findLongestMatch a b with
    | (i, j, k) =>
      if k = 0 then 0
      else
        matchTotalF fuel (a.take i) (b.take j) + k +
          matchTotalF fuel (a.drop (i + k)) (b.drop (j + k))

/-- Total size `M` of difflib's matching blocks. -/
def matchTotal (a b : List Char) : Nat :=
  matchTotalF (a.length + 1) a b

/-- `SequenceMatcher.ratio()` as an exact rational;
`2 * M / (len(a) + len(b))`, and 1.0 for two empty sequences
(difflib's `_calculate_ratio`). -/
def simScore (a b : List Char) : ℚ :=
  if a.length + b.length = 0 then 1
  else (2 * (matchTotal a b : ℚ)) / ((a.length : ℚ) + (b.length : ℚ))

/-- `ratio` on strings; the first argument is `seq1` (a candidate key),
the second is `seq2` (the query word), exactly as `get_close_matches`
sets them up. -/
def simScoreS (a b : String) : ℚ := simScore a.data b.data

/-! ## `get_close_matches(word, possibilities, n=1, cutoff)`

difflib collects `(ratio, key)` for every possibility with
`ratio ≥ cutoff` and returns `heapq.nlargest(1, result)`, which is
`max` over `(score, key)` tuples: larger score wins, and on equal
scores the lexicographically larger key wins. -/

/-- One step of the `max` scan over the qualifying `(score, key)`
pairs, in possibility order. -/
def cmStep (word : String) (cutoff : ℚ) (best : Option (ℚ × String))
    (k : String) : Option (ℚ × String) :=
  if cutoff ≤ simScoreS k word then
    match best with
    | none => some (simScoreS k word, k)
    | some p =>
      if p.1 < simScoreS k word ∨ (p.1 = simScoreS k word ∧ p.2 < k) then
        some (simScoreS k word, k)
      else some p
  else best

/-- `get_close_matches(word, keys, n=1, cutoff)`, returning the single
best match if any possibility scores at least `cutoff`. -/
def getCloseMatch (keys : List String) (word : String) (cutoff : ℚ) :
    Option String :=
  (keys.foldl (cmStep word cutoff) none).map (·.2)

/-! ## Buckets and mappings -/

/-- An aggregate bucket: `{"count": ..., "total": ..., "category": ...}`.
(The ai.py variant carries no category; it corresponds to ignoring the
`category` field.) -/
structure Bucket where
  count : Nat
  total : ℚ
  category : String
deriving DecidableEq

/-- An insertion-ordered mapping from grouping key to bucket, i.e. a
Python dict as used by the scripts. -/
abbrev Mapping := List (String × Bucket)

/-- The keys of a mapping, in insertion order (`dict.keys()`). -/
def keysOf (m : Mapping) : List String := m.map (·.1)

/-- Look up a key in a mapping. -/
def lookupB (m : Mapping) (k : String) : Option Bucket :=
  (m.find? (fun e => e.1 == k)).map (·.2)

/-- The count recorded for a key (0 if absent). -/
def countOf (m : Mapping) (k : String) : Nat :=
  match lookupB m k with
  | some b => b.count
  | none => 0

/-- The total recorded for a key (0 if absent). -/
def totalOf (m : Mapping) (k : String) : ℚ :=
  match lookupB m k with
  | some b => b.total
  | none => 0

/-- The category recorded for a key. -/
def catOf (m : Mapping) (k : String) : Option String :=
  (lookupB m k).map (·.category)

/-- Merging a source bucket `b` into a target bucket `cur`:
`cur.count += b.count; cur.total += b.total`, and the category is
first-non-placeholder-wins (budget_analysis.py lines 48-53 and
129-131). -/
def mergeBuckets (cur b : Bucket) : Bucket :=
  { count := cur.count + b.count
    total := cur.total + b.total
    category :=
      if cur.category = "N/A" ∧ b.category ≠ "N/A" then b.category
      else cur.category }

/-- `merged[key] += stats` for a key already present: merge `b` into the
bucket stored at `key`, leaving every other entry unchanged. -/
def updateBucket : Mapping → String → Bucket → Mapping
  | [], _, _ => []
  | (k₁, b₁) :: t, key, b =>
    if k₁ = key then (k₁, mergeBuckets b₁ b) :: t
    else (k₁, b₁) :: updateBucket t key b

/-! ## The fuzzy clusterer
(`group_similar_descriptions`, budget_analysis.py lines 40-56) -/

/-- One iteration of the clustering loop: find the best close match
among the keys already accepted; merge into it, or append as a new
entry. -/
def gsStep (cutoff : ℚ) (merged : Mapping) (e : String × Bucket) :
    Mapping :=
  match getCloseMatch (keysOf merged) e.1 cutoff with
  | some key => updateBucket merged key e.2
  | none => merged ++ [e]

/-- `group_similar_descriptions(grouped, cutoff)`. -/
def group_similar_descriptions (grouped : Mapping) (cutoff : ℚ) :
    Mapping :=
  grouped.foldl (gsStep cutoff) []

/-! ## Column resolution (`find_column`) -/

/-- `needle` occurs as a contiguous substring of `hay`. -/
def startsWithL : List Char → List Char → Bool
  | [], _ => true
  | _ :: _, [] => false
  | a :: as, b :: bs => a == b && startsWithL as bs

/-- Python's `c in h` substring test. -/
def isSubstr (needle hay : List Char) : Bool :=
  (List.range (hay.length + 1)).any fun i => startsWithL needle (hay.drop i)

/-- `find_column(headers, candidates)` (budget_analysis.py lines 15-21):
first header whose lowercasing contains one of the candidate keywords;
`None` if there is none. -/
def find_column (headers candidates : List String) : Option String :=
  headers.find? fun h =>
    candidates.any fun c => isSubstr c.data (h.data.map pyLower)

/-- The ai.py variant of `find_column` (ai.py lines 15-21): identical
search, but raises `ValueError` instead of returning `None`. -/
def find_column_ai (headers candidates : List String) :
    Except String String :=
  match find_column headers candidates with
  | some h => Except.ok h
  | none => Except.error "No matching column found"

/-! ## Per-account accumulation
(`process_account`, budget_analysis.py lines 79-118) -/

/-- A raw CSV row as produced by `csv.DictReader`: header/value pairs. -/
abbrev Row := List (String × String)

/-- `row[col]` for an optionally resolved column: fails (KeyError) when
the column is unresolved or absent from the row. -/
def rowLookup (r : Row) (c : Option String) : Option String :=
  match c with
  | none => none
  | some h => (r.find? (fun e => e.1 == h)).map (·.2)

/-- Remove thousands separators and currency signs:
`v.replace(",", "").replace("$", "")`. -/
def cleanAmt (l : List Char) : List Char :=
  l.filter fun ch => !(ch == ',' || ch == '$')

/-- Numeric value of a digit run. -/
def digitsVal (l : List Char) : Nat :=
  l.foldl (fun acc ch => acc * 10 + (ch.toNat - 48)) 0

/-- Python `float()` on the simple decimal literals this program feeds
it: optional surrounding whitespace, optional sign, an integer part
and/or a fractional part with at least one digit overall.  (Exponents,
`inf` and `nan` are not modelled; the transaction data never uses
them.) -/
def parseFloat (s : List Char) : Option ℚ :=
  let t := pyStrip s
  let (sign, u) : ℚ × List Char :=
    match t with
    | '-' :: r => (-1, r)
    | '+' :: r => (1, r)
    | r => (1, r)
  let ip := u.takeWhile Char.isDigit
  let rest := u.drop ip.length
  match rest with
  | [] => if ip.isEmpty then none else some (sign * digitsVal ip)
  | '.' :: fr =>
    let fp := fr.takeWhile Char.isDigit
    if !(fr.drop fp.length).isEmpty then none
    else if ip.isEmpty && fp.isEmpty then none
    else some (sign * ((digitsVal ip : ℚ) + (digitsVal fp : ℚ) / 10 ^ fp.length))
  | _ => none

/-- The absolute amount a row contributes, if any: look up the amount
cell, strip separators, parse it, and keep only charges (`amt < 0`),
as absolute value.  `none` covers every silently skipped case (the
`try/except: continue` and the `amt >= 0: continue` filters,
budget_analysis.py lines 88-93). -/
def rowAmount (ac : Option String) (r : Row) : Option ℚ :=
  match rowLookup r ac with
  | none => none
  | some v =>
    match parseFloat (cleanAmt v.data) with
    | none => none
    | some q => if 0 ≤ q then none else some (-q)

/-- The category a row carries (budget_analysis.py line 96):
`row[cat_col].strip() if cat_col != "N/A" and row.get(cat_col) else "N/A"`. -/
def rowCategory (cc : Option String) (r : Row) : String :=
  match cc with
  | none => "N/A"
  | some h =>
    match rowLookup r (some h) with
    | none => "N/A"
    | some v => if v = "" then "N/A" else stripStr v

/-- `g = grouped[keyword]; g["count"] += 1; g["total"] += amt;` and the
first-wins category update (budget_analysis.py lines 97-105), on one
bucket.  A fresh key starts from the defaultdict value
`{"count": 0, "total": 0.00, "category": "N/A"}`. -/
def bumpBucket (a : ℚ) (c : String) (b : Bucket) : Bucket :=
  { count := b.count + 1
    total := b.total + a
    category := if b.category = "N/A" then c else b.category }

/-- Accumulate one contribution into the mapping (defaultdict update). -/
def bump : Mapping → String → ℚ → String → Mapping
  | [], key, a, c => [(key, bumpBucket a c ⟨0, 0, "N/A"⟩)]
  | (k₁, b₁) :: t, key, a, c =>
    if k₁ = key then (k₁, bumpBucket a c b₁) :: t
    else (k₁, b₁) :: bump t key a c

/-- The effect of one row on the accumulator, given resolved columns
(the loop body, budget_analysis.py lines 85-105).  Used on rows whose
description lookup succeeds. -/
def accumStep (dc ac cc : Option String) (acc : Mapping) (r : Row) :
    Mapping :=
  match rowLookup r dc with
  | none => acc
  | some draw =>
    match rowAmount ac r with
    | none => acc
    | some a =>
      bump acc (normalize_description (stripStr draw)) a (rowCategory cc r)

/-- The accumulation loop: a row whose description cell cannot be read
raises (KeyError, uncaught); otherwise the row is folded in (possibly
as a silent skip). -/
def accumRows (dc ac cc : Option String) :
    Mapping → List Row → Except String Mapping
  | acc, [] => Except.ok acc
  | acc, r :: rs =>
    match rowLookup r dc with
    | none => Except.error "KeyError"
    | some _ => accumRows dc ac cc (accumStep dc ac cc acc r) rs

/-- The grouping key a row contributes to, if it is not skipped
(specification helper describing `accumStep`). -/
def contribKey (dc ac : Option String) (r : Row) : Option String :=
  match rowLookup r dc, rowAmount ac r with
  | some draw, some _ => some (normalize_description (stripStr draw))
  | _, _ => none

/-- The amount a row adds to the bucket of key `k` (0 if it is skipped
or contributes to a different key). -/
def contribAmt (dc ac : Option String) (r : Row) (k : String) : ℚ :=
  match rowLookup r dc, rowAmount ac r with
  | some draw, some a =>
    if normalize_description (stripStr draw) = k then a else 0
  | _, _ => 0

/-- `process_account` up to the mapping it writes per account: resolve
the three columns, accumulate, then cluster at the default cutoff
0.85 (budget_analysis.py lines 79-108). -/
def process_account (headers : List String) (rows : List Row) :
    Except String Mapping :=
  let dc := find_column headers ["desc"]
  let ac := find_column headers ["amount", "amt"]
  let cc := find_column headers ["category", "cat"]
  (accumRows dc ac cc [] rows).map
    fun g => group_similar_descriptions g (17 / 20)

/-- A row of the combined CSV:
`[desc, category, count, total, avg_month]`. -/
abbrev RowOut := String × String × Nat × ℚ × ℚ

/-- The rows `process_account` returns for the combined CSV
(budget_analysis.py lines 111-118): buckets with `count <= 1` are
skipped. -/
def accountRows (merged : Mapping) : List RowOut :=
  merged.filterMap fun e =>
    if e.2.count ≤ 1 then none
    else some (e.1, e.2.category, e.2.count, e.2.total, e.2.total / 12)

/-! ## The cross-source merger (`merge_rows`, budget_analysis.py
lines 121-133) -/

/-- Insert one combined-CSV row into the exact-key fold: a new key is
appended with its bucket; an existing key sums count/total with
first-wins category. -/
def insertRow : Mapping → String → Bucket → Mapping
  | [], desc, b => [(desc, b)]
  | (k₁, b₁) :: t, desc, b =>
    if k₁ = desc then (k₁, mergeBuckets b₁ b) :: t
    else (k₁, b₁) :: insertRow t desc b

/-- One step of `merge_rows`'s exact-key fold. -/
def mergeRowsStep (g : Mapping) (r : RowOut) : Mapping :=
  insertRow g r.1 ⟨r.2.2.1, r.2.2.2.1, r.2.1⟩

/-- The exact-key fold of `merge_rows` (lines 123-131). -/
def foldRows (rows : List RowOut) : Mapping :=
  rows.foldl mergeRowsStep []

/-- `merge_rows(rows, cutoff)`: exact-key fold, then the fuzzy
clusterer. -/
def merge_rows (rows : List RowOut) (cutoff : ℚ) : Mapping :=
  group_similar_descriptions (foldRows rows) cutoff

/-! ## Specification predicates used by the theorems -/

/-- `best` is the correct state of the `max` scan of
`get_close_matches` after seeing the possibilities `ks`: `none` iff no
key qualified, otherwise the qualifying key with the largest score,
lexicographically largest key on ties. -/
def IsBest (cutoff : ℚ) (word : String) (ks : List String) :
    Option (ℚ × String) → Prop
  | none => ∀ k ∈ ks, ¬ cutoff ≤ simScoreS k word
  | some p =>
    p.2 ∈ ks ∧ p.1 = simScoreS p.2 word ∧ cutoff ≤ p.1 ∧
      ∀ k ∈ ks, cutoff ≤ simScoreS k word →
        simScoreS k word < p.1 ∨ (simScoreS k word = p.1 ∧ k ≤ p.2)

/-- Processing the keys `ks` after having already accepted the keys
`seen`, every key of `ks` fails the close-match test against all keys
accepted before it. -/
def IndepFrom (cutoff : ℚ) : List String → List String → Prop
  | _, [] => True
  | seen, k :: ks =>
    getCloseMatch seen k cutoff = none ∧ IndepFrom cutoff (seen ++ [k]) ks

/-- Every key of `ks` fails the close-match test against the keys
before it.  This is the shape of every clusterer output, and exactly
the condition making the clusterer act as the identity. -/
def SelfIndep (cutoff : ℚ) (ks : List String) : Prop :=
  IndepFrom cutoff [] ks

/-! # Theorems

First a collection of structural lemmas about the embedded operations,
then one theorem per specification claim. -/

/-! ## Association-list lemmas -/

theorem lookupB_cons (k₁ : String) (b : Bucket) (t : Mapping) (k : String) :
    lookupB ((k₁, b) :: t) k = if k₁ = k then some b else lookupB t k := by
  by_cases h : k₁ = k <;> simp [lookupB, List.find?_cons, h]

theorem keysOf_nil : keysOf [] = [] := rfl

theorem keysOf_cons (e : String × Bucket) (t : Mapping) :
    keysOf (e :: t) = e.1 :: keysOf t := rfl

theorem keysOf_append (m l : Mapping) :
    keysOf (m ++ l) = keysOf m ++ keysOf l := by
  simp [keysOf]

theorem keysOf_updateBucket (m : Mapping) (key : String) (b : Bucket) :
    keysOf (updateBucket m key b) = keysOf m := by
  induction m with
  | nil => rfl
  | cons e t ih =>
    obtain ⟨k₁, b₁⟩ := e
    by_cases h : k₁ = key <;> simp [updateBucket, h, keysOf_cons, ih]

theorem lookupB_append_left (m l : Mapping) (k : String) (b : Bucket)
    (h : lookupB m k = some b) : lookupB (m ++ l) k = some b := by
  induction m with
  | nil => simp [lookupB] at h
  | cons e t ih =>
    obtain ⟨k₁, b₁⟩ := e
    rw [lookupB_cons] at h
    rw [List.cons_append, lookupB_cons]
    by_cases hk : k₁ = k
    · rwa [if_pos hk] at h ⊢
    · rw [if_neg hk] at h ⊢
      exact ih h

/-! ## The `max` scan of `get_close_matches` -/

theorem isBest_none_iff (c : ℚ) (w : String) (ks : List String) :
    IsBest c w ks none ↔ ∀ k ∈ ks, ¬ c ≤ simScoreS k w := Iff.rfl

theorem isBest_some_iff (c : ℚ) (w : String) (ks : List String)
    (p : ℚ × String) :
    IsBest c w ks (some p) ↔
      (p.2 ∈ ks ∧ p.1 = simScoreS p.2 w ∧ c ≤ p.1 ∧
        ∀ k ∈ ks, c ≤ simScoreS k w →
          simScoreS k w < p.1 ∨ (simScoreS k w = p.1 ∧ k ≤ p.2)) := Iff.rfl

theorem isBest_step (c : ℚ) (w : String) (pre : List String)
    (best : Option (ℚ × String)) (k : String) (hb : IsBest c w pre best) :
    IsBest c w (pre ++ [k]) (cmStep w c best k) := by
  cases best with
  | none =>
    rw [isBest_none_iff] at hb
    simp only [cmStep]
    by_cases hq : c ≤ simScoreS k w
    · rw [if_pos hq, isBest_some_iff]
      refine ⟨by simp, rfl, hq, ?_⟩
      intro k' hk' hq'
      rcases List.mem_append.1 hk' with h | h
      · exact absurd hq' (hb k' h)
      · rcases List.mem_singleton.1 h with rfl
        right; exact ⟨rfl, le_refl _⟩
    · rw [if_neg hq, isBest_none_iff]
      intro k' hk'
      rcases List.mem_append.1 hk' with h | h
      · exact hb k' h
      · rcases List.mem_singleton.1 h with rfl
        exact hq
  | some p =>
    rw [isBest_some_iff] at hb
    obtain ⟨hmem, heq, hle, hmax⟩ := hb
    simp only [cmStep]
    by_cases hq : c ≤ simScoreS k w
    · rw [if_pos hq]
      by_cases hlt : p.1 < simScoreS k w ∨ (p.1 = simScoreS k w ∧ p.2 < k)
      · rw [if_pos hlt, isBest_some_iff]
        refine ⟨by simp, rfl, hq, ?_⟩
        intro k' hk' hq'
        rcases List.mem_append.1 hk' with h | h
        · rcases hmax k' h hq' with h1 | ⟨h1, h2⟩
          · rcases hlt with h3 | ⟨h3, h4⟩
            · exact Or.inl (lt_trans h1 h3)
            · exact Or.inl (h3 ▸ h1)
          · rcases hlt with h3 | ⟨h3, h4⟩
            · exact Or.inl (h1 ▸ h3)
            · exact Or.inr ⟨h1.trans h3, le_trans h2 (le_of_lt h4)⟩
        · rcases List.mem_singleton.1 h with rfl
          right; exact ⟨rfl, le_refl _⟩
      · rw [if_neg hlt, isBest_some_iff]
        push_neg at hlt
        obtain ⟨h1, h2⟩ := hlt
        refine ⟨List.mem_append_left _ hmem, heq, hle, ?_⟩
        intro k' hk' hq'
        rcases List.mem_append.1 hk' with h | h
        · exact hmax k' h hq'
        · rcases List.mem_singleton.1 h with rfl
          rcases lt_or_eq_of_le h1 with h3 | h3
          · exact Or.inl h3
          · exact Or.inr ⟨h3, h2 h3.symm⟩
    · rw [if_neg hq, isBest_some_iff]
      refine ⟨List.mem_append_left _ hmem, heq, hle, ?_⟩
      intro k' hk' hq'
      rcases List.mem_append.1 hk' with h | h
      · exact hmax k' h hq'
      · rcases List.mem_singleton.1 h with rfl
        exact absurd hq' hq

theorem isBest_foldl (c : ℚ) (w : String) :
    ∀ (ks pre : List String) (best : Option (ℚ × String)),
      IsBest c w pre best →
      IsBest c w (pre ++ ks) (ks.foldl (cmStep w c) best) := by
  intro ks
  induction ks with
  | nil => intro pre best hb; simpa using hb
  | cons k ks ih =>
    intro pre best hb
    have h := ih (pre ++ [k]) (cmStep w c best k) (isBest_step c w pre best k hb)
    rw [List.append_assoc, List.singleton_append] at h
    exact h

theorem getCloseMatch_isBest (keys : List String) (word : String) (c : ℚ) :
    IsBest c word keys (keys.foldl (cmStep word c) none) := by
  have h0 : IsBest c word [] none := by
    rw [isBest_none_iff]
    intro k hk
    exact absurd hk (List.not_mem_nil k)
  simpa using isBest_foldl c word keys [] none h0

/-- Evaluation helper for concrete similarity scores: reduce the
`ratio` to its numeric value from the (kernel-computable) matched size
and lengths. -/
theorem simScoreS_eval (a b : String) (M la lb : Nat)
    (hM : matchTotal a.data b.data = M) (ha : a.data.length = la)
    (hb : b.data.length = lb) (h : ¬ la + lb = 0) :
    simScoreS a b = (2 * (M : ℚ)) / ((la : ℚ) + (lb : ℚ)) := by
  rw [simScoreS, simScore, ha, hb, if_neg h, hM]

/-! ## Claims C4 and C5: the merge-target choice and the cutoff boundary -/

/-- **C4, counterexample.**  The claim says that a similarity tie among
existing keys is broken in favour of the key encountered first in the
result mapping's iteration order.  In the code the winner of a tie is
the lexicographically larger key, because `get_close_matches` takes the
`max` of `(score, key)` pairs.  Concretely: with cutoff 2/3, the keys
`"AB"` and `"BC"` (in this insertion order, and too far from each other
to have merged) both score exactly 2/3 against `"B"`, yet `"B"` is
merged into `"BC"`, the later key, not into `"AB"` — first-key
tie-breaking would have produced
`[("AB", ⟨2, 7, "N/A"⟩), ("BC", ⟨1, 3, "N/A"⟩)]`. -/
theorem c4_counterexample :
    simScoreS "AB" "B" = simScoreS "BC" "B" ∧
    getCloseMatch ["AB", "BC"] "B" (2 / 3) = some "BC" ∧
    group_similar_descriptions
        [("AB", ⟨1, 2, "N/A"⟩), ("BC", ⟨1, 3, "N/A"⟩), ("B", ⟨1, 5, "N/A"⟩)]
        (2 / 3) =
      [("AB", ⟨1, 2, "N/A"⟩), ("BC", ⟨2, 8, "N/A"⟩)] := by
  have s1 : simScoreS "AB" "B" = 2 / 3 := by
    rw [simScoreS_eval "AB" "B" 1 2 1 (by decide) rfl rfl (by omega)]; norm_num
  have s2 : simScoreS "BC" "B" = 2 / 3 := by
    rw [simScoreS_eval "BC" "B" 1 2 1 (by decide) rfl rfl (by omega)]; norm_num
  have s3 : simScoreS "AB" "BC" = 1 / 2 := by
    rw [simScoreS_eval "AB" "BC" 1 2 2 (by decide) rfl rfl (by omega)]; norm_num
  have g0 : getCloseMatch (keysOf []) "AB" (2 / 3) = none := rfl
  have g1 : getCloseMatch (keysOf [("AB", (⟨1, 2, "N/A"⟩ : Bucket))]) "BC"
      (2 / 3) = none := by
    simp only [getCloseMatch, keysOf, List.map, List.foldl, cmStep, s3]
    rw [if_neg (by norm_num)]
    rfl
  have g2 : getCloseMatch
      (keysOf [("AB", (⟨1, 2, "N/A"⟩ : Bucket)), ("BC", ⟨1, 3, "N/A"⟩)]) "B"
      (2 / 3) = some "BC" := by
    simp only [keysOf, List.map]
    simp +decide [getCloseMatch, cmStep, s1, s2]
  refine ⟨s1.trans s2.symm, by simpa [keysOf] using g2, ?_⟩
  simp [group_similar_descriptions, gsStep, g0, g1, g2, updateBucket,
    mergeBuckets]
  norm_num

/-- **C4, amended.**  When a processed key scores at or above the
cutoff against at least one key of the result mapping, the merge target
is an existing key with the single highest similarity score, ties
broken in favour of the lexicographically greatest tied key (Python's
`max` over `(score, key)` pairs) — not the first such key in insertion
order; the target's bucket then receives the sum of the counts and
totals (and a first-wins category). -/
theorem c4_amended (merged : Mapping) (desc : String) (b : Bucket)
    (cutoff : ℚ) (k : String)
    (h : getCloseMatch (keysOf merged) desc cutoff = some k) :
    k ∈ keysOf merged ∧ cutoff ≤ simScoreS k desc ∧
      (∀ k' ∈ keysOf merged, cutoff ≤ simScoreS k' desc →
        simScoreS k' desc < simScoreS k desc ∨
          (simScoreS k' desc = simScoreS k desc ∧ k' ≤ k)) ∧
      gsStep cutoff merged (desc, b) = updateBucket merged k b := by
  have hstep : gsStep cutoff merged (desc, b) = updateBucket merged k b := by
    simp only [gsStep, h]
  obtain ⟨p, hp, hp2⟩ := Option.map_eq_some'.1 h
  have hb := getCloseMatch_isBest (keysOf merged) desc cutoff
  rw [hp, isBest_some_iff] at hb
  obtain ⟨hmem, heq, hle, hmax⟩ := hb
  subst hp2
  refine ⟨hmem, heq ▸ hle, ?_, hstep⟩
  intro k' hk' hq'
  have := hmax k' hk' hq'
  rwa [← heq]

/-- Witness for `c4_amended` at a concrete mapping. -/
theorem c4_amended_witness :
    "AB" ∈ keysOf [("AB", (⟨1, 2, "N/A"⟩ : Bucket))] ∧
      (2 / 3 : ℚ) ≤ simScoreS "AB" "B" ∧
      (∀ k' ∈ keysOf [("AB", (⟨1, 2, "N/A"⟩ : Bucket))],
        (2 / 3 : ℚ) ≤ simScoreS k' "B" →
          simScoreS k' "B" < simScoreS "AB" "B" ∨
            (simScoreS k' "B" = simScoreS "AB" "B" ∧ k' ≤ "AB")) ∧
      gsStep (2 / 3) [("AB", ⟨1, 2, "N/A"⟩)] ("B", ⟨1, 5, "N/A"⟩) =
        updateBucket [("AB", ⟨1, 2, "N/A"⟩)] "AB" ⟨1, 5, "N/A"⟩ :=
  c4_amended [("AB", ⟨1, 2, "N/A"⟩)] "B" ⟨1, 5, "N/A"⟩ (2 / 3) "AB" (by
    have s1 : simScoreS "AB" "B" = 2 / 3 := by
      rw [simScoreS_eval "AB" "B" 1 2 1 (by decide) rfl rfl (by omega)]
      norm_num
    simp +decide [getCloseMatch, keysOf, cmStep, s1])

/-- **C5.**  The clustering threshold is inclusive: if some existing
key's similarity to the processed key is exactly the cutoff, a merge
happens (into the best-scoring existing key); if every existing key
scores strictly below the cutoff, the processed key is inserted
unchanged as a new entry. -/
theorem c5_cutoff_boundary (merged : Mapping) (desc : String) (b : Bucket)
    (cutoff : ℚ) :
    ((∃ k ∈ keysOf merged, simScoreS k desc = cutoff) →
      ∃ k', getCloseMatch (keysOf merged) desc cutoff = some k' ∧
        gsStep cutoff merged (desc, b) = updateBucket merged k' b) ∧
    ((∀ k ∈ keysOf merged, simScoreS k desc < cutoff) →
      gsStep cutoff merged (desc, b) = merged ++ [(desc, b)]) := by
  constructor
  · rintro ⟨k, hk, hks⟩
    have hb := getCloseMatch_isBest (keysOf merged) desc cutoff
    cases hfold : (keysOf merged).foldl (cmStep desc cutoff) none with
    | none =>
      rw [hfold, isBest_none_iff] at hb
      exact absurd (le_of_eq hks.symm) (hb k hk)
    | some p =>
      refine ⟨p.2, ?_, ?_⟩
      · simp [getCloseMatch, hfold]
      · simp only [gsStep, getCloseMatch, hfold, Option.map_some']
  · intro hall
    have hnone : getCloseMatch (keysOf merged) desc cutoff = none := by
      have hb := getCloseMatch_isBest (keysOf merged) desc cutoff
      cases hfold : (keysOf merged).foldl (cmStep desc cutoff) none with
      | none => simp [getCloseMatch, hfold]
      | some p =>
        rw [hfold, isBest_some_iff] at hb
        obtain ⟨hmem, heq, hle, _⟩ := hb
        exact absurd (lt_of_le_of_lt (heq ▸ hle) (hall p.2 hmem))
          (lt_irrefl _)
    simp only [gsStep, hnone]

/-- Witness for `c5_cutoff_boundary`: with cutoff exactly 1/2,
`"AC"` scores exactly 1/2 against the sole key `"AB"` and is merged;
with cutoff 17/20, `"XY"` scores 0 against `"AB"` and is appended. -/
theorem c5_cutoff_boundary_witness :
    (∃ k', getCloseMatch (keysOf [("AB", (⟨1, 2, "N/A"⟩ : Bucket))]) "AC"
        (1 / 2) = some k' ∧
      gsStep (1 / 2) [("AB", ⟨1, 2, "N/A"⟩)] ("AC", ⟨1, 3, "N/A"⟩) =
        updateBucket [("AB", ⟨1, 2, "N/A"⟩)] k' ⟨1, 3, "N/A"⟩) ∧
    gsStep (17 / 20) [("AB", ⟨1, 2, "N/A"⟩)] ("XY", ⟨1, 3, "N/A"⟩) =
      [("AB", ⟨1, 2, "N/A"⟩)] ++ [("XY", ⟨1, 3, "N/A"⟩)] :=
  ⟨(c5_cutoff_boundary [("AB", ⟨1, 2, "N/A"⟩)] "AC" ⟨1, 3, "N/A"⟩ (1 / 2)).1
      ⟨"AB", by simp [keysOf], by
        rw [simScoreS_eval "AB" "AC" 1 2 2 (by decide) rfl rfl (by omega)]
        norm_num⟩,
    (c5_cutoff_boundary [("AB", ⟨1, 2, "N/A"⟩)] "XY" ⟨1, 3, "N/A"⟩
        (17 / 20)).2 (by
      intro k hk
      simp only [keysOf, List.map, List.mem_singleton] at hk
      subst hk
      rw [simScoreS_eval "AB" "XY" 0 2 2 (by decide) rfl rfl (by omega)]
      norm_num)⟩

/-! ## Claims C9 and C10: totality, validity, and idempotence of the
clusterer -/

theorem gs_fold_nodup (c : ℚ) :
    ∀ (l : List (String × Bucket)) (acc : Mapping),
      (keysOf acc).Nodup → (∀ k ∈ keysOf l, k ∉ keysOf acc) →
      (keysOf l).Nodup → (keysOf (l.foldl (gsStep c) acc)).Nodup := by
  intro l
  induction l with
  | nil => intro acc h _ _; exact h
  | cons e t ih =>
    intro acc hacc hdisj hl
    rw [keysOf_cons] at hdisj hl
    rw [List.foldl_cons]
    rcases List.nodup_cons.1 hl with ⟨he, ht⟩
    cases hm : getCloseMatch (keysOf acc) e.1 c with
    | some key =>
      have hstep : gsStep c acc e = updateBucket acc key e.2 := by
        simp only [gsStep, hm]
      rw [hstep]
      refine ih _ ?_ ?_ ht
      · rwa [keysOf_updateBucket]
      · intro k hk
        rw [keysOf_updateBucket]
        exact hdisj k (List.mem_cons_of_mem _ hk)
    | none =>
      have hstep : gsStep c acc e = acc ++ [e] := by
        simp only [gsStep, hm]
      rw [hstep]
      refine ih _ ?_ ?_ ht
      · rw [keysOf_append]
        refine List.Nodup.append hacc (List.nodup_singleton _) ?_
        intro k hk hk1
        simp only [keysOf_cons, keysOf_nil, List.mem_singleton] at hk1
        exact hdisj k (hk1 ▸ List.mem_cons_self _ _) hk
      · intro k hk
        rw [keysOf_append]
        intro hmem
        rcases List.mem_append.1 hmem with h | h
        · exact hdisj k (List.mem_cons_of_mem _ hk) h
        · simp only [keysOf_cons, keysOf_nil, List.mem_singleton] at h
          exact he (h ▸ hk)

/-- **C9.**  The fuzzy clusterer is total (it is a function in the
model) and never fails: for any cutoff in `[0, 1]`, the empty mapping
is mapped to the empty mapping, and any mapping with distinct keys (a
Python dict) produces a valid mapping with distinct keys. -/
theorem c9_clusterer_total (m : Mapping) (cutoff : ℚ) (h0 : 0 ≤ cutoff)
    (h1 : cutoff ≤ 1) (hnd : (keysOf m).Nodup) :
    group_similar_descriptions [] cutoff = [] ∧
      (keysOf (group_similar_descriptions m cutoff)).Nodup :=
  ⟨rfl, gs_fold_nodup cutoff m [] List.nodup_nil (by simp [keysOf]) hnd⟩

/-- Witness for `c9_clusterer_total` at a concrete mapping and
cutoff. -/
theorem c9_clusterer_total_witness :
    group_similar_descriptions [] (17 / 20) = [] ∧
      (keysOf (group_similar_descriptions
        [("NETFLIX", ⟨2, 30, "N/A"⟩), ("SPOTIFY", ⟨1, 10, "N/A"⟩)]
        (17 / 20))).Nodup :=
  c9_clusterer_total [("NETFLIX", ⟨2, 30, "N/A"⟩), ("SPOTIFY", ⟨1, 10, "N/A"⟩)]
    (17 / 20) (by norm_num) (by norm_num) (by decide)

/-! ### Idempotence (claim C10) -/

theorem indepFrom_append (c : ℚ) :
    ∀ (ks s : List String) (k : String),
      IndepFrom c s (ks ++ [k]) ↔
        (IndepFrom c s ks ∧ getCloseMatch (s ++ ks) k c = none) := by
  intro ks
  induction ks with
  | nil =>
    intro s k
    simp only [List.nil_append, List.append_nil, IndepFrom]
    tauto
  | cons a t ih =>
    intro s k
    simp only [List.cons_append, IndepFrom, List.append_eq]
    rw [ih (s ++ [a]) k, List.append_assoc, List.singleton_append, and_assoc]

theorem selfIndep_gs_fold (c : ℚ) :
    ∀ (l : List (String × Bucket)) (acc : Mapping),
      SelfIndep c (keysOf acc) →
      SelfIndep c (keysOf (l.foldl (gsStep c) acc)) := by
  intro l
  induction l with
  | nil => intro acc h; exact h
  | cons e t ih =>
    intro acc hacc
    rw [List.foldl_cons]
    cases hm : getCloseMatch (keysOf acc) e.1 c with
    | some key =>
      have hstep : gsStep c acc e = updateBucket acc key e.2 := by
        simp only [gsStep, hm]
      rw [hstep]
      refine ih _ ?_
      rwa [keysOf_updateBucket]
    | none =>
      have hstep : gsStep c acc e = acc ++ [e] := by
        simp only [gsStep, hm]
      rw [hstep]
      refine ih _ ?_
      rw [keysOf_append]
      show IndepFrom c [] (keysOf acc ++ keysOf [e])
      have : keysOf [e] = [e.1] := rfl
      rw [this, indepFrom_append]
      exact ⟨hacc, by simpa using hm⟩

theorem gs_fold_of_indep (c : ℚ) :
    ∀ (l : List (String × Bucket)) (acc : Mapping),
      IndepFrom c (keysOf acc) (keysOf l) →
      l.foldl (gsStep c) acc = acc ++ l := by
  intro l
  induction l with
  | nil => intro acc _; simp
  | cons e t ih =>
    intro acc h
    rw [keysOf_cons] at h
    obtain ⟨h1, h2⟩ := h
    rw [List.foldl_cons]
    have hstep : gsStep c acc e = acc ++ [e] := by
      simp only [gsStep, h1]
    rw [hstep]
    have h2' : IndepFrom c (keysOf (acc ++ [e])) (keysOf t) := by
      rwa [keysOf_append]
    rw [ih (acc ++ [e]) h2', List.append_assoc, List.singleton_append]

/-- **C10.**  The fuzzy clusterer is idempotent at a fixed cutoff:
applied to its own output it returns that output unchanged — same keys
in the same order, same buckets — because every key the first pass
accepted scored below the cutoff against every key accepted before
it. -/
theorem c10_clusterer_idempotent (m : Mapping) (cutoff : ℚ) :
    group_similar_descriptions (group_similar_descriptions m cutoff) cutoff =
      group_similar_descriptions m cutoff := by
  have h1 : SelfIndep cutoff (keysOf (group_similar_descriptions m cutoff)) :=
    selfIndep_gs_fold cutoff m [] trivial
  have h2 := gs_fold_of_indep cutoff (group_similar_descriptions m cutoff) []
    (by exact h1)
  simpa [group_similar_descriptions] using h2

/-! ## Claim C6: per-account accumulation is order-independent for
exact keys -/

theorem countOf_nil (k : String) : countOf [] k = 0 := rfl

theorem totalOf_nil (k : String) : totalOf [] k = 0 := rfl

theorem countOf_bump (m : Mapping) (key : String) (a : ℚ) (c : String)
    (k : String) :
    countOf (bump m key a c) k = countOf m k + if key = k then 1 else 0 := by
  induction m with
  | nil =>
    by_cases h : key = k
    · simp [bump, countOf, lookupB, List.find?, h, bumpBucket]
    · have hb : (key == k) = false := beq_false_of_ne h
      simp [bump, countOf, lookupB, List.find?, hb, h, bumpBucket]
  | cons e t ih =>
    obtain ⟨k₁, b₁⟩ := e
    by_cases h1 : k₁ = key
    · subst h1
      by_cases h2 : k₁ = k
      · subst h2
        simp [bump, countOf, lookupB_cons, bumpBucket]
      · simp [bump, countOf, lookupB_cons, h2]
    · by_cases h2 : k₁ = k
      · subst h2
        have hne : ¬ key = k₁ := fun h => h1 h.symm
        simp [bump, countOf, lookupB_cons, h1, hne]
      · simp only [bump, if_neg h1]
        simpa [countOf, lookupB_cons, h2] using ih

theorem totalOf_bump (m : Mapping) (key : String) (a : ℚ) (c : String)
    (k : String) :
    totalOf (bump m key a c) k = totalOf m k + if key = k then a else 0 := by
  induction m with
  | nil =>
    by_cases h : key = k
    · simp [bump, totalOf, lookupB, List.find?, h, bumpBucket]
    · have hb : (key == k) = false := beq_false_of_ne h
      simp [bump, totalOf, lookupB, List.find?, hb, h, bumpBucket]
  | cons e t ih =>
    obtain ⟨k₁, b₁⟩ := e
    by_cases h1 : k₁ = key
    · subst h1
      by_cases h2 : k₁ = k
      · subst h2
        simp [bump, totalOf, lookupB_cons, bumpBucket]
      · simp [bump, totalOf, lookupB_cons, h2]
    · by_cases h2 : k₁ = k
      · subst h2
        have hne : ¬ key = k₁ := fun h => h1 h.symm
        simp [bump, totalOf, lookupB_cons, h1, hne]
      · simp only [bump, if_neg h1]
        simpa [totalOf, lookupB_cons, h2] using ih

theorem countOf_accumStep (dc ac cc : Option String) (acc : Mapping)
    (r : Row) (k : String) :
    countOf (accumStep dc ac cc acc r) k =
      countOf acc k + if contribKey dc ac r = some k then 1 else 0 := by
  unfold accumStep contribKey
  cases hd : rowLookup r dc with
  | none => simp
  | some draw =>
    cases ha : rowAmount ac r with
    | none => simp
    | some a =>
      rw [countOf_bump]
      by_cases h : normalize_description (stripStr draw) = k
      · simp [h]
      · simp [h, Option.some_inj]

theorem totalOf_accumStep (dc ac cc : Option String) (acc : Mapping)
    (r : Row) (k : String) :
    totalOf (accumStep dc ac cc acc r) k =
      totalOf acc k + contribAmt dc ac r k := by
  unfold accumStep contribAmt
  cases hd : rowLookup r dc with
  | none => simp
  | some draw =>
    cases ha : rowAmount ac r with
    | none => simp
    | some a => rw [totalOf_bump]

theorem countOf_accum_foldl (dc ac cc : Option String) (k : String) :
    ∀ (rows : List Row) (acc : Mapping),
      countOf (rows.foldl (accumStep dc ac cc) acc) k =
        countOf acc k +
          rows.countP (fun r => contribKey dc ac r == some k) := by
  intro rows
  induction rows with
  | nil => intro acc; simp
  | cons r rs ih =>
    intro acc
    rw [List.foldl_cons, ih, countOf_accumStep, List.countP_cons]
    by_cases h : contribKey dc ac r = some k
    · simp [h, Nat.add_assoc, Nat.add_comm]
    · simp [h]

theorem totalOf_accum_foldl (dc ac cc : Option String) (k : String) :
    ∀ (rows : List Row) (acc : Mapping),
      totalOf (rows.foldl (accumStep dc ac cc) acc) k =
        totalOf acc k + (rows.map (fun r => contribAmt dc ac r k)).sum := by
  intro rows
  induction rows with
  | nil => intro acc; simp
  | cons r rs ih =>
    intro acc
    rw [List.foldl_cons, ih, totalOf_accumStep, List.map_cons, List.sum_cons]
    ring

theorem accumRows_ok_iff (dc ac cc : Option String) :
    ∀ (rows : List Row) (acc : Mapping) (m : Mapping),
      accumRows dc ac cc acc rows = Except.ok m ↔
        ((∀ r ∈ rows, (rowLookup r dc).isSome) ∧
          m = rows.foldl (accumStep dc ac cc) acc) := by
  intro rows
  induction rows with
  | nil =>
    intro acc m
    simp only [accumRows, List.foldl_nil, Except.ok.injEq]
    constructor
    · intro h
      exact ⟨fun r hr => absurd hr (List.not_mem_nil r), h.symm⟩
    · rintro ⟨-, rfl⟩
      rfl
  | cons r rs ih =>
    intro acc m
    simp only [accumRows, List.foldl_cons]
    cases hd : rowLookup r dc with
    | none =>
      constructor
      · intro h; cases h
      · rintro ⟨hall, -⟩
        have := hall r (List.mem_cons_self _ _)
        rw [hd] at this
        cases this
    | some draw =>
      rw [ih]
      constructor
      · rintro ⟨hall, rfl⟩
        refine ⟨?_, rfl⟩
        intro r' hr'
        rcases List.mem_cons.1 hr' with rfl | h
        · rw [hd]; rfl
        · exact hall r' h
      · rintro ⟨hall, rfl⟩
        exact ⟨fun r' hr' => hall r' (List.mem_cons_of_mem _ hr'), rfl⟩

/-- **C6.**  Per-account accumulation is order-independent for exact
keys: permuting the rows of one account leaves every grouping key's
count and total unchanged in the accumulated mapping (the mapping built
before the fuzzy clusterer runs). -/
theorem c6_accumulation_perm (dc ac cc : Option String)
    (rows rows' : List Row) (m : Mapping) (hp : rows.Perm rows')
    (hm : accumRows dc ac cc [] rows = Except.ok m) :
    ∃ m', accumRows dc ac cc [] rows' = Except.ok m' ∧
      ∀ k, countOf m' k = countOf m k ∧ totalOf m' k = totalOf m k := by
  rw [accumRows_ok_iff] at hm
  obtain ⟨hall, rfl⟩ := hm
  refine ⟨rows'.foldl (accumStep dc ac cc) [], ?_, ?_⟩
  · rw [accumRows_ok_iff]
    exact ⟨fun r hr => hall r (hp.mem_iff.2 hr), rfl⟩
  · intro k
    constructor
    · rw [countOf_accum_foldl, countOf_accum_foldl,
        hp.countP_eq (fun r => contribKey dc ac r == some k)]
    · rw [totalOf_accum_foldl, totalOf_accum_foldl,
        (hp.map (fun r => contribAmt dc ac r k)).sum_eq]

/-- Witness for `c6_accumulation_perm`: two charge rows for the same
merchant, fed in both orders. -/
theorem c6_accumulation_perm_witness :
    ∃ m', accumRows (some "D") (some "A") none []
        [[("D", "COFFEE"), ("A", "-1.50")], [("D", "COFFEE"), ("A", "-3.50")]] =
        Except.ok m' ∧
      ∀ k, countOf m' k = countOf [("COFFEE", ⟨2, 5, "N/A"⟩)] k ∧
        totalOf m' k = totalOf [("COFFEE", ⟨2, 5, "N/A"⟩)] k :=
  c6_accumulation_perm (some "D") (some "A") none
    [[("D", "COFFEE"), ("A", "-3.50")], [("D", "COFFEE"), ("A", "-1.50")]]
    [[("D", "COFFEE"), ("A", "-1.50")], [("D", "COFFEE"), ("A", "-3.50")]]
    [("COFFEE", ⟨2, 5, "N/A"⟩)]
    (List.Perm.swap _ _ _)
    (by
      have d1 : digitsVal ['3'] = 3 := rfl
      have d2 : digitsVal ['5', '0'] = 50 := rfl
      have d3 : digitsVal ['1'] = 1 := rfl
      have h1 : parseFloat (cleanAmt "-3.50".data) =
          some ((-1 : ℚ) * ((digitsVal ['3'] : ℚ) +
            (digitsVal ['5', '0'] : ℚ) / 10 ^ (2 : Nat))) := rfl
      have h2 : parseFloat (cleanAmt "-1.50".data) =
          some ((-1 : ℚ) * ((digitsVal ['1'] : ℚ) +
            (digitsVal ['5', '0'] : ℚ) / 10 ^ (2 : Nat))) := rfl
      have l1 : rowLookup [("D", "COFFEE"), ("A", "-3.50")] (some "A") =
          some "-3.50" := rfl
      have l2 : rowLookup [("D", "COFFEE"), ("A", "-1.50")] (some "A") =
          some "-1.50" := rfl
      have l3 : rowLookup [("D", "COFFEE"), ("A", "-3.50")] (some "D") =
          some "COFFEE" := rfl
      have l4 : rowLookup [("D", "COFFEE"), ("A", "-1.50")] (some "D") =
          some "COFFEE" := rfl
      have a1 : rowAmount (some "A") [("D", "COFFEE"), ("A", "-3.50")] =
          some (7 / 2 : ℚ) := by
        simp only [rowAmount, l1, h1, d1, d2]
        norm_num
      have a2 : rowAmount (some "A") [("D", "COFFEE"), ("A", "-1.50")] =
          some (3 / 2 : ℚ) := by
        simp only [rowAmount, l2, h2, d3, d2]
        norm_num
      have key : normalize_description (stripStr "COFFEE") = "COFFEE" := rfl
      simp only [accumRows, accumStep, l1, l2, l3, l4, a1, a2, rowCategory,
        key, bump, bumpBucket]
      norm_num)

/-! ## Claim C8: "first non-placeholder category wins" -/

theorem catOf_cons (k₁ : String) (b₁ : Bucket) (t : Mapping) (k : String) :
    catOf ((k₁, b₁) :: t) k =
      if k₁ = k then some b₁.category else catOf t k := by
  by_cases h : k₁ = k <;> simp [catOf, lookupB_cons, h]

theorem catOf_bump_of_ne (m : Mapping) (key : String) (a : ℚ) (g : String)
    (k cat : String) (h : catOf m k = some cat) (hcat : cat ≠ "N/A") :
    catOf (bump m key a g) k = some cat := by
  induction m with
  | nil => simp [catOf, lookupB, List.find?] at h
  | cons e t ih =>
    obtain ⟨k₁, b₁⟩ := e
    rw [catOf_cons] at h
    by_cases h1 : k₁ = key
    · subst h1
      have hb : bump ((k₁, b₁) :: t) k₁ a g = (k₁, bumpBucket a g b₁) :: t := by
        simp [bump]
      rw [hb, catOf_cons]
      by_cases hk : k₁ = k
      · rw [if_pos hk] at h ⊢
        have hbc : b₁.category = cat := Option.some_inj.1 h
        simp only [bumpBucket]
        rw [hbc, if_neg hcat]
      · rw [if_neg hk] at h ⊢
        exact h
    · have hb : bump ((k₁, b₁) :: t) key a g = (k₁, b₁) :: bump t key a g := by
        simp [bump, h1]
      rw [hb, catOf_cons]
      by_cases hk : k₁ = k
      · rw [if_pos hk] at h ⊢
        exact h
      · rw [if_neg hk] at h ⊢
        exact ih h

theorem catOf_updateBucket_of_ne (m : Mapping) (key : String) (b : Bucket)
    (k cat : String) (h : catOf m k = some cat) (hcat : cat ≠ "N/A") :
    catOf (updateBucket m key b) k = some cat := by
  induction m with
  | nil => simp [catOf, lookupB, List.find?] at h
  | cons e t ih =>
    obtain ⟨k₁, b₁⟩ := e
    rw [catOf_cons] at h
    by_cases h1 : k₁ = key
    · subst h1
      have hb : updateBucket ((k₁, b₁) :: t) k₁ b =
          (k₁, mergeBuckets b₁ b) :: t := by
        simp [updateBucket]
      rw [hb, catOf_cons]
      by_cases hk : k₁ = k
      · rw [if_pos hk] at h ⊢
        have hbc : b₁.category = cat := Option.some_inj.1 h
        simp only [mergeBuckets]
        rw [hbc, if_neg (fun hand => hcat hand.1)]
      · rw [if_neg hk] at h ⊢
        exact h
    · have hb : updateBucket ((k₁, b₁) :: t) key b =
          (k₁, b₁) :: updateBucket t key b := by
        simp [updateBucket, h1]
      rw [hb, catOf_cons]
      by_cases hk : k₁ = k
      · rw [if_pos hk] at h ⊢
        exact h
      · rw [if_neg hk] at h ⊢
        exact ih h

theorem catOf_insertRow_of_ne (m : Mapping) (desc : String) (b : Bucket)
    (k cat : String) (h : catOf m k = some cat) (hcat : cat ≠ "N/A") :
    catOf (insertRow m desc b) k = some cat := by
  induction m with
  | nil => simp [catOf, lookupB, List.find?] at h
  | cons e t ih =>
    obtain ⟨k₁, b₁⟩ := e
    rw [catOf_cons] at h
    by_cases h1 : k₁ = desc
    · subst h1
      have hb : insertRow ((k₁, b₁) :: t) k₁ b =
          (k₁, mergeBuckets b₁ b) :: t := by
        simp [insertRow]
      rw [hb, catOf_cons]
      by_cases hk : k₁ = k
      · rw [if_pos hk] at h ⊢
        have hbc : b₁.category = cat := Option.some_inj.1 h
        simp only [mergeBuckets]
        rw [hbc, if_neg (fun hand => hcat hand.1)]
      · rw [if_neg hk] at h ⊢
        exact h
    · have hb : insertRow ((k₁, b₁) :: t) desc b =
          (k₁, b₁) :: insertRow t desc b := by
        simp [insertRow, h1]
      rw [hb, catOf_cons]
      by_cases hk : k₁ = k
      · rw [if_pos hk] at h ⊢
        exact h
      · rw [if_neg hk] at h ⊢
        exact ih h

theorem catOf_append_of_some (m l : Mapping) (k cat : String)
    (h : catOf m k = some cat) : catOf (m ++ l) k = some cat := by
  obtain ⟨b, hb, hb2⟩ := Option.map_eq_some'.1 h
  rw [catOf, lookupB_append_left m l k b hb, Option.map_some', hb2]

theorem catOf_gsStep_of_ne (cutoff : ℚ) (acc : Mapping) (e : String × Bucket)
    (k cat : String) (h : catOf acc k = some cat) (hcat : cat ≠ "N/A") :
    catOf (gsStep cutoff acc e) k = some cat := by
  cases hm : getCloseMatch (keysOf acc) e.1 cutoff with
  | some key =>
    have hstep : gsStep cutoff acc e = updateBucket acc key e.2 := by
      simp only [gsStep, hm]
    rw [hstep]
    exact catOf_updateBucket_of_ne acc key e.2 k cat h hcat
  | none =>
    have hstep : gsStep cutoff acc e = acc ++ [e] := by
      simp only [gsStep, hm]
    rw [hstep]
    exact catOf_append_of_some acc [e] k cat h

/-- **C8.**  Category is first-non-placeholder-wins in every operation.
Persistence: once a bucket's category is a non-`"N/A"` value, no later
accumulated record (part 1), no fuzzy-cluster merge (part 2) and no
exact cross-account fold step (part 3) ever changes it.  Adoption:
while a bucket still carries the placeholder, an accumulated record's
category is adopted (part 4), and a merged-in bucket's category is
adopted when it is not the placeholder (part 5). -/
theorem c8_category_first_wins (k cat : String) (hcat : cat ≠ "N/A") :
    (∀ (dc ac cc : Option String) (rows : List Row) (acc m : Mapping),
      catOf acc k = some cat → accumRows dc ac cc acc rows = Except.ok m →
      catOf m k = some cat) ∧
    (∀ (cutoff : ℚ) (l : List (String × Bucket)) (acc : Mapping),
      catOf acc k = some cat →
      catOf (l.foldl (gsStep cutoff) acc) k = some cat) ∧
    (∀ (rows : List RowOut) (acc : Mapping),
      catOf acc k = some cat →
      catOf (rows.foldl mergeRowsStep acc) k = some cat) ∧
    (∀ (a : ℚ) (g : String) (b : Bucket),
      b.category = "N/A" → (bumpBucket a g b).category = g) ∧
    (∀ b b' : Bucket, b.category = "N/A" → b'.category ≠ "N/A" →
      (mergeBuckets b b').category = b'.category) := by
  refine ⟨?_, ?_, ?_, ?_, ?_⟩
  · intro dc ac cc rows acc m hc hok
    rw [accumRows_ok_iff] at hok
    obtain ⟨-, rfl⟩ := hok
    induction rows generalizing acc with
    | nil => exact hc
    | cons r rs ih =>
      rw [List.foldl_cons]
      refine ih _ ?_
      unfold accumStep
      cases rowLookup r dc with
      | none => exact hc
      | some draw =>
        cases rowAmount ac r with
        | none => exact hc
        | some a =>
          exact catOf_bump_of_ne acc _ a _ k cat hc hcat
  · intro cutoff l
    induction l with
    | nil => intro acc hc; exact hc
    | cons e t ih =>
      intro acc hc
      rw [List.foldl_cons]
      exact ih _ (catOf_gsStep_of_ne cutoff acc e k cat hc hcat)
  · intro rows
    induction rows with
    | nil => intro acc hc; exact hc
    | cons r rs ih =>
      intro acc hc
      rw [List.foldl_cons]
      exact ih _ (catOf_insertRow_of_ne acc _ _ k cat hc hcat)
  · intro a g b hb
    simp [bumpBucket, hb]
  · intro b b' hb hb'
    simp [mergeBuckets, hb, hb']

/-- Witness for `c8_category_first_wins`: a bucket whose category is
`"FOOD"` keeps it through a clustering pass over one more entry. -/
theorem c8_category_first_wins_witness :
    catOf (([("Y", ⟨1, 4, "GROCERY"⟩)] : List (String × Bucket)).foldl
      (gsStep (17 / 20)) [("X", ⟨1, 1, "FOOD"⟩)]) "X" = some "FOOD" :=
  (c8_category_first_wins "X" "FOOD" (by decide)).2.1 (17 / 20)
    [("Y", ⟨1, 4, "GROCERY"⟩)] [("X", ⟨1, 1, "FOOD"⟩)] rfl

/-! ## Claim C2: missing description/amount column -/

/-- **C2.**  Claimed: a source whose headers lack an amount (or
description) column fails loudly.  In budget_analysis.py,
`find_column` returns `None` for the amount column of the headers
`["Description", "Value"]`, and `process_account` then silently skips
every row (the bare `except: continue` catches the `KeyError` from
`row[None]`), producing an empty mapping instead of raising.  The ai.py
variant of `find_column` does raise.  This matches the specification's
stated intent (fail loudly) only for ai.py; budget_analysis.py
silently degrades. -/
theorem c2_missing_amount_column_silent :
    find_column ["Description", "Value"] ["amount", "amt"] = none ∧
    process_account ["Description", "Value"]
      [[("Description", "NETFLIX"), ("Value", "-5.00")]] = Except.ok [] ∧
    find_column_ai ["Description", "Value"] ["amount", "amt"] =
      Except.error "No matching column found" :=
  ⟨rfl, rfl, rfl⟩

/-! ## Claim C1: singletons and the cross-account merge -/

/-- **C1, counterexample.**  Claimed: count-1 buckets are excluded only
by the report emitter, never dropped before the cross-source merge, so
`"UBER TRIP"` with count 1 in each of two accounts reaches the combined
mapping with count 2 and total 35.  In the code, `process_account`
itself filters `count <= 1` buckets out of the rows it returns for the
combined CSV (budget_analysis.py lines 111-118), so both singleton
buckets are dropped before `merge_rows` runs and the combined mapping
is empty — the key is not promoted. -/
theorem c1_counterexample :
    accountRows [("UBER TRIP", ⟨1, 20, "N/A"⟩)] = [] ∧
    merge_rows (accountRows [("UBER TRIP", ⟨1, 20, "N/A"⟩)] ++
      accountRows [("UBER TRIP", ⟨1, 15, "N/A"⟩)]) (17 / 20) = [] :=
  ⟨rfl, rfl⟩

theorem buckets_eq_of_nodup_keys (m : Mapping) (k : String) (b b' : Bucket)
    (hnd : (keysOf m).Nodup) (h1 : (k, b) ∈ m) (h2 : (k, b') ∈ m) :
    b = b' := by
  induction m with
  | nil => cases h1
  | cons e t ih =>
    rw [keysOf_cons, List.nodup_cons] at hnd
    obtain ⟨hknot, hndt⟩ := hnd
    rcases List.mem_cons.1 h1 with rfl | h1t
    · rcases List.mem_cons.1 h2 with he | h2t
      · exact ((Prod.ext_iff.1 he).2).symm
      · exact absurd (List.mem_map_of_mem (fun e => e.1) h2t) hknot
    · rcases List.mem_cons.1 h2 with rfl | h2t
      · exact absurd (List.mem_map_of_mem (fun e => e.1) h1t) hknot
      · exact ih hndt h1t h2t

/-- **C1, amended.**  In the code, `process_account` drops every
count-1 bucket from the rows it passes to the cross-account merge, so
a key whose bucket is a singleton in an account never reaches the
combined mapping from that account (part 1); for the buckets that do
survive the per-account filter, the exact-key cross-account fold of
`merge_rows` sums counts and totals with a first-wins category
(part 2). -/
theorem c1_amended (m : Mapping) (k : String) (b : Bucket)
    (hnd : (keysOf m).Nodup) (hmem : (k, b) ∈ m) (hc : b.count ≤ 1) :
    k ∉ (accountRows m).map (fun r => r.1) ∧
    ∀ (desc cat₁ cat₂ : String) (c₁ c₂ : Nat) (t₁ t₂ a₁ a₂ : ℚ),
      foldRows [(desc, cat₁, c₁, t₁, a₁), (desc, cat₂, c₂, t₂, a₂)] =
        [(desc, mergeBuckets ⟨c₁, t₁, cat₁⟩ ⟨c₂, t₂, cat₂⟩)] := by
  constructor
  · intro hmap
    obtain ⟨r, hr, hr1⟩ := List.mem_map.1 hmap
    obtain ⟨e, he, hfe⟩ := List.mem_filterMap.1 hr
    by_cases hcnt : e.2.count ≤ 1
    · simp only [if_pos hcnt] at hfe
      cases hfe
    · simp only [if_neg hcnt] at hfe
      have hr' : (e.1, e.2.category, e.2.count, e.2.total, e.2.total / 12) =
          r := Option.some_inj.1 hfe
      have he1 : e.1 = k := by rw [← hr1, ← hr']
      have hee : (k, e.2) ∈ m := by
        have hsplit : e = (e.1, e.2) := rfl
        rw [he1] at hsplit
        exact hsplit ▸ he
      have := buckets_eq_of_nodup_keys m k b e.2 hnd hmem hee
      exact hcnt (this ▸ hc)
  · intro desc cat₁ cat₂ c₁ c₂ t₁ t₂ a₁ a₂
    simp [foldRows, mergeRowsStep, insertRow]

/-- Witness for `c1_amended`: the singleton `"UBER TRIP"` bucket never
reaches the combined rows of its account. -/
theorem c1_amended_witness :
    "UBER TRIP" ∉
      (accountRows [("UBER TRIP", ⟨1, 20, "N/A"⟩)]).map (fun r => r.1) :=
  (c1_amended [("UBER TRIP", ⟨1, 20, "N/A"⟩)] "UBER TRIP" ⟨1, 20, "N/A"⟩
    (by decide) (List.mem_singleton.2 rfl) (Nat.le_refl 1)).1

/-! ## Claim C7: the normalizer is idempotent -/

theorem isSp_false_of_isUpper (ch : Char) (h : ch.isUpper = true) :
    isSp ch = false := by
  by_contra hsp
  rw [Bool.not_eq_false] at hsp
  simp only [isSp, Bool.or_eq_true, beq_iff_eq] at hsp
  rcases hsp with ((((h1 | h1) | h1) | h1) | h1) | h1 <;> subst h1 <;>
    exact absurd h (by decide)

theorem isLower_false_of_isUpper (ch : Char) (h : ch.isUpper = true) :
    ch.isLower = false := by
  simp only [Char.isUpper, Bool.and_eq_true, decide_eq_true_eq] at h
  by_contra hl
  rw [Bool.not_eq_false] at hl
  simp only [Char.isLower, Bool.and_eq_true, decide_eq_true_eq] at hl
  have h1 : (97 : Nat) ≤ ch.val.toNat := hl.1
  have h2 : ch.val.toNat ≤ 90 := h.2
  omega

theorem pyUpper_eq_self_of_not_lower (ch : Char) (h : ch.isLower = false) :
    pyUpper ch = ch := by
  simp [pyUpper, h]

theorem isLower_false_of_not_word (ch : Char) (h : isWordChar ch = false) :
    ch.isLower = false := by
  simp only [isWordChar, Bool.or_eq_false_iff] at h
  have := h.1.1
  simp only [Char.isAlpha, Bool.or_eq_false_iff] at this
  exact this.2

theorem mem_pyStrip (l : List Char) (ch : Char) (h : ch ∈ pyStrip l) :
    ch ∈ l := by
  unfold pyStrip at h
  rw [List.mem_reverse] at h
  have h2 := (List.dropWhile_suffix isSp).sublist.subset h
  rw [List.mem_reverse] at h2
  exact (List.dropWhile_suffix isSp).sublist.subset h2

theorem mem_collapseGo (l : List Char) :
    ∀ (f : Bool) (ch : Char), ch ∈ collapseGo f l →
      ch = ' ' ∨ (ch ∈ l ∧ isSp ch = false) := by
  induction l with
  | nil => intro f ch h; simp [collapseGo] at h
  | cons a rest ih =>
    intro f ch h
    by_cases hsp : isSp a = true
    · cases f with
      | true =>
        simp only [collapseGo, if_pos hsp, if_pos rfl] at h
        rcases ih true ch h with h1 | ⟨h2, h3⟩
        · exact Or.inl h1
        · exact Or.inr ⟨List.mem_cons_of_mem _ h2, h3⟩
      | false =>
        simp only [collapseGo, if_pos hsp] at h
        rw [if_neg (by simp)] at h
        rcases List.mem_cons.1 h with rfl | h1
        · exact Or.inl rfl
        · rcases ih true ch h1 with h2 | ⟨h3, h4⟩
          · exact Or.inl h2
          · exact Or.inr ⟨List.mem_cons_of_mem _ h3, h4⟩
    · rw [Bool.not_eq_true] at hsp
      simp only [collapseGo, hsp, Bool.false_eq_true, if_false] at h
      rcases List.mem_cons.1 h with rfl | h1
      · exact Or.inr ⟨List.mem_cons_self _ _, hsp⟩
      · rcases ih false ch h1 with h2 | ⟨h3, h4⟩
        · exact Or.inl h2
        · exact Or.inr ⟨List.mem_cons_of_mem _ h3, h4⟩

theorem mem_sub2 (l : List Char) (ch : Char) (h : ch ∈ sub2 l) :
    ch.isUpper = true ∨ isSp ch = true := by
  obtain ⟨c, hc, rfl⟩ := List.mem_map.1 h
  unfold sub2c
  by_cases hcc : (c.isUpper || isSp c) = true
  · rw [if_pos hcc]
    rw [Bool.or_eq_true] at hcc
    exact hcc
  · rw [if_neg hcc]
    exact Or.inr (by decide)

theorem norm_mem (l : List Char) :
    ∀ ch ∈ normalizeChars l,
      ch = ' ' ∨ (ch.isUpper = true ∧ isSp ch = false) := by
  intro ch h
  unfold normalizeChars at h
  have h1 := mem_pyStrip _ ch h
  rcases mem_collapseGo _ false ch h1 with h2 | ⟨h3, h4⟩
  · exact Or.inl h2
  · rcases mem_sub2 _ ch h3 with h5 | h5
    · exact Or.inr ⟨h5, h4⟩
    · rw [h5] at h4; cases h4

theorem head_collapseGo_true (l : List Char) :
    ∀ c, (collapseGo true l).head? = some c → isSp c = false := by
  induction l with
  | nil => intro c h; simp [collapseGo] at h
  | cons a rest ih =>
    intro c h
    by_cases hsp : isSp a = true
    · simp only [collapseGo, if_pos hsp, if_pos rfl] at h
      exact ih c h
    · rw [Bool.not_eq_true] at hsp
      simp only [collapseGo, hsp, Bool.false_eq_true, if_false] at h
      rw [List.head?_cons, Option.some_inj] at h
      exact h ▸ hsp

theorem chain_collapseGo :
    ∀ (f : Bool) (l : List Char),
      (collapseGo f l).Chain' (fun a b => isSp a = false ∨ isSp b = false) := by
  intro f l
  induction l generalizing f with
  | nil => simp [collapseGo]
  | cons a rest ih =>
    by_cases hsp : isSp a = true
    · cases f with
      | true =>
        simp only [collapseGo, if_pos hsp, if_pos rfl]
        exact ih true
      | false =>
        simp only [collapseGo, if_pos hsp]
        rw [if_neg (by simp)]
        rw [List.chain'_cons']
        refine ⟨?_, ih true⟩
        intro y hy
        exact Or.inr (head_collapseGo_true rest y hy)
    · rw [Bool.not_eq_true] at hsp
      simp only [collapseGo, hsp, Bool.false_eq_true, if_false]
      rw [List.chain'_cons']
      exact ⟨fun y _ => Or.inl hsp, ih false⟩

theorem chain_dropWhile (p : Char → Bool) (l : List Char)
    {R : Char → Char → Prop} (h : l.Chain' R) : (l.dropWhile p).Chain' R := by
  induction l with
  | nil => simpa using h
  | cons a rest ih =>
    rw [List.dropWhile_cons]
    by_cases hp : p a = true
    · rw [if_pos hp]
      exact ih h.tail
    · rw [if_neg hp]
      exact h

theorem chain_pyStrip (l : List Char)
    (h : l.Chain' (fun a b => isSp a = false ∨ isSp b = false)) :
    (pyStrip l).Chain' (fun a b => isSp a = false ∨ isSp b = false) := by
  unfold pyStrip
  have h1 := chain_dropWhile isSp l h
  have h2 : ((l.dropWhile isSp).reverse).Chain'
      (fun a b => isSp a = false ∨ isSp b = false) := by
    rw [List.chain'_reverse]
    exact h1.imp (fun a b hab => hab.symm)
  have h3 := chain_dropWhile isSp _ h2
  rw [List.chain'_reverse]
  exact h3.imp (fun a b hab => hab.symm)

theorem head_dropWhile_isSp (l : List Char) (c : Char)
    (h : (l.dropWhile isSp).head? = some c) : isSp c = false := by
  induction l with
  | nil => simp [List.dropWhile] at h
  | cons a rest ih =>
    rw [List.dropWhile_cons] at h
    by_cases hsp : isSp a = true
    · rw [if_pos hsp] at h
      exact ih h
    · rw [if_neg hsp] at h
      rw [List.head?_cons, Option.some_inj] at h
      rw [Bool.not_eq_true] at hsp
      exact h ▸ hsp

theorem getLast?_dropWhile (p : Char → Bool) (l : List Char)
    (h : l.dropWhile p ≠ []) : (l.dropWhile p).getLast? = l.getLast? := by
  induction l with
  | nil => simp [List.dropWhile] at h
  | cons a rest ih =>
    rw [List.dropWhile_cons] at h ⊢
    by_cases hp : p a = true
    · rw [if_pos hp] at h ⊢
      have hrest : rest ≠ [] := by
        intro he
        subst he
        simp [List.dropWhile] at h
      rw [ih h]
      cases rest with
      | nil => exact absurd rfl hrest
      | cons b t => rw [List.getLast?_cons_cons]
    · rw [if_neg hp]

theorem pyStrip_head (l : List Char) (c : Char)
    (h : (pyStrip l).head? = some c) : isSp c = false := by
  unfold pyStrip at h
  rw [List.head?_reverse] at h
  have hne : (l.dropWhile isSp).reverse.dropWhile isSp ≠ [] := by
    intro he
    rw [he] at h
    cases h
  rw [getLast?_dropWhile isSp _ hne, List.getLast?_reverse] at h
  exact head_dropWhile_isSp l c h

theorem pyStrip_last (l : List Char) (c : Char)
    (h : (pyStrip l).getLast? = some c) : isSp c = false := by
  unfold pyStrip at h
  rw [List.getLast?_reverse] at h
  exact head_dropWhile_isSp _ c h

theorem dropWhile_eq_self_of_head (l : List Char)
    (h : ∀ c, l.head? = some c → isSp c = false) : l.dropWhile isSp = l := by
  cases l with
  | nil => rfl
  | cons a rest =>
    rw [List.dropWhile_cons, if_neg]
    rw [h a rfl]
    simp

theorem pyStrip_eq_self (l : List Char)
    (hh : ∀ c, l.head? = some c → isSp c = false)
    (hl : ∀ c, l.getLast? = some c → isSp c = false) : pyStrip l = l := by
  unfold pyStrip
  rw [dropWhile_eq_self_of_head l hh]
  rw [dropWhile_eq_self_of_head l.reverse
    (by intro c hc; rw [List.head?_reverse] at hc; exact hl c hc)]
  rw [List.reverse_reverse]

theorem collapseGo_true_eq_false (l : List Char)
    (h : ∀ c, l.head? = some c → isSp c = false) :
    collapseGo true l = collapseGo false l := by
  cases l with
  | nil => rfl
  | cons b t =>
    have hb := h b rfl
    simp [collapseGo, hb]

theorem collapseGo_eq_self (l : List Char)
    (hsp1 : ∀ c ∈ l, isSp c = true → c = ' ')
    (hch : l.Chain' (fun a b => isSp a = false ∨ isSp b = false)) :
    collapseGo false l = l := by
  induction l with
  | nil => rfl
  | cons a rest ih =>
    rw [List.chain'_cons'] at hch
    obtain ⟨hrel, htail⟩ := hch
    by_cases hsp : isSp a = true
    · have ha : a = ' ' := hsp1 a (List.mem_cons_self _ _) hsp
      have hhead : ∀ c, rest.head? = some c → isSp c = false := by
        intro c hc
        rcases hrel c hc with h1 | h1
        · rw [hsp] at h1
          cases h1
        · exact h1
      simp only [collapseGo, if_pos hsp]
      rw [if_neg (by simp)]
      rw [collapseGo_true_eq_false rest hhead]
      rw [ih (fun c hc hc2 => hsp1 c (List.mem_cons_of_mem _ hc) hc2) htail]
      rw [ha]
    · rw [Bool.not_eq_true] at hsp
      simp only [collapseGo, hsp, Bool.false_eq_true, if_false]
      rw [ih (fun c hc hc2 => hsp1 c (List.mem_cons_of_mem _ hc) hc2) htail]

theorem sub2c_eq_self (c : Char) (h : c.isUpper = true ∨ c = ' ') :
    sub2c c = c := by
  rcases h with h | rfl
  · rw [sub2c, if_pos]
    rw [h]
    simp
  · rfl

theorem sub2_eq_self (l : List Char) (h : ∀ c ∈ l, sub2c c = c) :
    sub2 l = l := by
  induction l with
  | nil => rfl
  | cons a rest ih =>
    rw [sub2, List.map_cons, h a (List.mem_cons_self _ _)]
    have := ih (fun c hc => h c (List.mem_cons_of_mem _ hc))
    rw [sub2] at this
    rw [this]

theorem sub1Go_eq_self (l : List Char) (h : '*' ∉ l) : sub1Go false l = l := by
  induction l with
  | nil => rfl
  | cons a rest ih =>
    have ha : a ≠ '*' := fun he => h (he ▸ List.mem_cons_self _ _)
    have hd : (decide (a = '*') && (rest.takeWhile isWordChar).any
        Char.isDigit) = false := by
      rw [decide_eq_false ha]
      simp
    simp only [sub1Go, Bool.false_and, Bool.false_eq_true, if_false, hd]
    rw [ih (fun hm => h (List.mem_cons_of_mem _ hm))]

theorem map_pyUpper_eq_self (l : List Char) (h : ∀ c ∈ l, c.isLower = false) :
    l.map pyUpper = l := by
  induction l with
  | nil => rfl
  | cons a rest ih =>
    rw [List.map_cons, pyUpper_eq_self_of_not_lower a (h a (List.mem_cons_self _ _))]
    rw [ih (fun c hc => h c (List.mem_cons_of_mem _ hc))]

theorem normalizeChars_idem (l : List Char) :
    normalizeChars (normalizeChars l) = normalizeChars l := by
  have hmem := norm_mem l
  have h1 : (normalizeChars l).map pyUpper = normalizeChars l := by
    refine map_pyUpper_eq_self _ ?_
    intro c hc
    rcases hmem c hc with rfl | ⟨hu, -⟩
    · decide
    · exact isLower_false_of_isUpper c hu
  have h2 : sub1 (normalizeChars l) = normalizeChars l := by
    refine sub1Go_eq_self _ ?_
    intro hst
    rcases hmem '*' hst with h | ⟨hu, -⟩
    · exact absurd h (by decide)
    · exact absurd hu (by decide)
  have h3 : sub2 (normalizeChars l) = normalizeChars l := by
    refine sub2_eq_self _ ?_
    intro c hc
    rcases hmem c hc with rfl | ⟨hu, -⟩
    · exact sub2c_eq_self ' ' (Or.inr rfl)
    · exact sub2c_eq_self c (Or.inl hu)
  have hch : (normalizeChars l).Chain'
      (fun a b => isSp a = false ∨ isSp b = false) :=
    chain_pyStrip _ (chain_collapseGo false _)
  have h4 : collapse (normalizeChars l) = normalizeChars l := by
    refine collapseGo_eq_self _ ?_ hch
    intro c hc hcs
    rcases hmem c hc with rfl | ⟨hu, -⟩
    · rfl
    · rw [isSp_false_of_isUpper c hu] at hcs
      cases hcs
  have h5 : pyStrip (normalizeChars l) = normalizeChars l := by
    show pyStrip (pyStrip (collapse (sub2 (sub1 (l.map pyUpper))))) =
      normalizeChars l
    exact pyStrip_eq_self _ (pyStrip_head _) (pyStrip_last _)
  conv_lhs => rw [normalizeChars]
  rw [h1, h2, h3, h4, h5]

/-- **C7.**  The normalizer is deterministic (a pure function in the
model) and idempotent: normalizing an already-normalized description
changes nothing. -/
theorem c7_normalize_idempotent (s : String) :
    normalize_description (normalize_description s) = normalize_description s := by
  show (⟨normalizeChars (normalizeChars s.data)⟩ : String) = ⟨normalizeChars s.data⟩
  exact congrArg String.mk (normalizeChars_idem s.data)

/-! ## Claim C3: which digit-bearing tokens does the normalizer
delete? -/

/-- **C3, counterexample.**  The claim says every token mixing letters
and at least one digit is deleted entirely, so that no letters from
such a token survive in the grouping key.  The code deletes a
digit-bearing token entirely only when it is prefixed by `*`; in a bare
mixed token the digits are merely replaced by spaces, so its letters
survive as separate tokens: `normalize("A1B") = "A B"` (were the claim
true the token would vanish, and `normalize("X A1B")` would equal
`normalize("X")`). -/
theorem c3_counterexample :
    normalize_description "A1B" = "A B" ∧
    normalize_description "A1B" ≠ "" ∧
    normalize_description "X A1B" ≠ normalize_description "X" :=
  ⟨rfl, by decide, by decide⟩

theorem takeWhile_append_all (p : Char → Bool) (x y : List Char)
    (h : ∀ c ∈ x, p c = true) :
    (x ++ y).takeWhile p = x ++ y.takeWhile p := by
  induction x with
  | nil => rfl
  | cons a t ih =>
    rw [List.cons_append, List.takeWhile_cons,
      if_pos (h a (List.mem_cons_self _ _)), List.cons_append,
      ih (fun c hc => h c (List.mem_cons_of_mem _ hc))]

theorem takeWhile_append_not_all (p : Char → Bool) (x y : List Char)
    (h : ¬ ∀ c ∈ x, p c = true) :
    (x ++ y).takeWhile p = x.takeWhile p := by
  induction x with
  | nil => exact absurd (fun c hc => absurd hc (List.not_mem_nil c)) h
  | cons a t ih =>
    rw [List.cons_append, List.takeWhile_cons, List.takeWhile_cons]
    by_cases hp : p a = true
    · rw [if_pos hp, if_pos hp]
      have ht : ¬ ∀ c ∈ t, p c = true := by
        intro hall
        exact h (fun c hc => by
          rcases List.mem_cons.1 hc with rfl | hc2
          · exact hp
          · exact hall c hc2)
      rw [ih ht]
    · rw [if_neg hp, if_neg hp]

theorem sub1Go_skip_word_run (b : List Char) :
    ∀ w : List Char, (∀ c ∈ w, isWordChar c = true) →
      sub1Go true (w ++ b) = sub1Go true b := by
  intro w
  induction w with
  | nil => intro _; rfl
  | cons a t ih =>
    intro h
    rw [List.cons_append]
    have ha := h a (List.mem_cons_self _ _)
    simp only [sub1Go, ha, Bool.and_true, if_pos rfl]
    exact ih (fun c hc => h c (List.mem_cons_of_mem _ hc))

theorem sub1Go_true_eq_false (b : List Char)
    (hb : b = [] ∨ ∃ ch t, b = ch :: t ∧ isWordChar ch = false) :
    sub1Go true b = sub1Go false b := by
  rcases hb with rfl | ⟨ch, t, rfl, hch⟩
  · rfl
  · simp [sub1Go, hch]

theorem sub1Go_star_run (w b : List Char)
    (hword : ∀ c ∈ w, isWordChar c = true)
    (hd : ∃ c ∈ w, c.isDigit = true)
    (hb : b = [] ∨ ∃ ch t, b = ch :: t ∧ isWordChar ch = false) :
    ∀ (a : List Char) (f : Bool),
      sub1Go f (a ++ '*' :: (w ++ b)) = sub1Go f (a ++ b) := by
  have hstar : isWordChar '*' = false := by decide
  have htwb : b.takeWhile isWordChar = [] := by
    rcases hb with rfl | ⟨ch, t, rfl, hch⟩
    · rfl
    · rw [List.takeWhile_cons, if_neg (by rw [hch]; simp)]
  have htww : (w ++ b).takeWhile isWordChar = w := by
    rw [takeWhile_append_all isWordChar w b hword, htwb, List.append_nil]
  have hany : ((w ++ b).takeWhile isWordChar).any Char.isDigit = true := by
    rw [htww, List.any_eq_true]
    exact hd
  intro a
  induction a with
  | nil =>
    intro f
    simp only [List.nil_append]
    have hns : (f && isWordChar '*') = false := by
      rw [hstar]
      simp
    simp only [sub1Go, hns, Bool.false_eq_true, if_false]
    rw [if_pos (by simpa using hany)]
    rw [sub1Go_skip_word_run b w hword]
    cases f with
    | true => rfl
    | false => exact sub1Go_true_eq_false b hb
  | cons ch a' ih =>
    intro f
    have htw : ((a' ++ '*' :: (w ++ b)).takeWhile isWordChar).any
        Char.isDigit = ((a' ++ b).takeWhile isWordChar).any Char.isDigit := by
      by_cases hall : ∀ c ∈ a', isWordChar c = true
      · rw [takeWhile_append_all isWordChar a' _ hall,
          takeWhile_append_all isWordChar a' _ hall]
        rw [List.takeWhile_cons, if_neg (by rw [hstar]; simp), htwb]
      · rw [takeWhile_append_not_all isWordChar a' _ hall,
          takeWhile_append_not_all isWordChar a' _ hall]
    rw [List.cons_append, List.cons_append]
    simp only [sub1Go, htw]
    by_cases h1 : (f && isWordChar ch) = true
    · rw [if_pos h1, if_pos h1]
      exact ih true
    · rw [if_neg h1, if_neg h1]
      by_cases h2 : (decide (ch = '*') &&
          ((a' ++ b).takeWhile isWordChar).any Char.isDigit) = true
      · rw [if_pos h2, if_pos h2]
        exact ih true
      · rw [if_neg h2, if_neg h2]
        rw [ih false]

/-- **C3, amended.**  The normalizer deletes entirely exactly the
digit-bearing tokens that are prefixed by `*`: for any surrounding
context (any prefix `a`, and any suffix `b` that does not start with a
word character), a `*` followed by a word-character run that contains a
digit (and no lowercase letters — the run is inspected after
uppercasing) is erased without a trace, as if the `*` and the run were
not there.  Digit-bearing tokens without the `*` prefix keep their
letters (`c3_counterexample`), and letter-only `*`-tokens are kept:
`normalize("AMAZON*PRIME") ≠ normalize("AMAZON")`. -/
theorem c3_amended (a w b : List Char)
    (hword : ∀ ch ∈ w, isWordChar ch = true ∧ ch.isLower = false)
    (hd : ∃ ch ∈ w, ch.isDigit = true)
    (hb : b = [] ∨ ∃ ch t, b = ch :: t ∧ isWordChar ch = false) :
    normalizeChars (a ++ '*' :: (w ++ b)) = normalizeChars (a ++ b) ∧
    normalize_description "AMAZON*PRIME" ≠ normalize_description "AMAZON" := by
  constructor
  · unfold normalizeChars
    have hw : w.map pyUpper = w :=
      map_pyUpper_eq_self w (fun c hc => (hword c hc).2)
    have hmaps : (a ++ '*' :: (w ++ b)).map pyUpper =
        a.map pyUpper ++ '*' :: (w ++ b.map pyUpper) := by
      rw [List.map_append, List.map_cons, List.map_append, hw,
        show pyUpper '*' = '*' from by decide]
    have hmaps2 : (a ++ b).map pyUpper = a.map pyUpper ++ b.map pyUpper :=
      List.map_append pyUpper a b
    have hbm : b.map pyUpper = [] ∨
        ∃ ch t, b.map pyUpper = ch :: t ∧ isWordChar ch = false := by
      rcases hb with rfl | ⟨ch, t, rfl, hch⟩
      · exact Or.inl rfl
      · refine Or.inr ⟨ch, t.map pyUpper, ?_, hch⟩
        rw [List.map_cons,
          pyUpper_eq_self_of_not_lower ch (isLower_false_of_not_word ch hch)]
    have hs := sub1Go_star_run w (b.map pyUpper)
      (fun c hc => (hword c hc).1) hd hbm (a.map pyUpper) false
    rw [hmaps, hmaps2]
    show pyStrip (collapse (sub2 (sub1Go false _))) =
      pyStrip (collapse (sub2 (sub1Go false _)))
    rw [hs]
  · decide

/-- Witness for `c3_amended`: the spec's own example,
`normalize("AMAZON*AB12CD") = normalize("AMAZON")`. -/
theorem c3_amended_witness :
    normalize_description "AMAZON*AB12CD" = normalize_description "AMAZON" := by
  have h := (c3_amended "AMAZON".data ['A', 'B', '1', '2', 'C', 'D'] []
    (by decide) (by decide) (Or.inl rfl)).1
  show (⟨normalizeChars "AMAZON*AB12CD".data⟩ : String) =
    ⟨normalizeChars "AMAZON".data⟩
  exact congrArg String.mk h
